import Mathlib

/-!
# ReadRot — verification of the text segmentation and playback-sync core

Shallow embedding of the ReadRot sources:
* `src/unnamed/part_000` (`chunking.ts`): `splitIntoSentences`, `countWords`,
  `splitIntoWords`, `chunkText`;
* `src/src/hooks/useTTS.ts`: the heuristic word-index estimator
  (`startWordEstimation`, `resume`);
* `src/src/app/page.tsx`: `extractWordTimings`;
* `src/src/hooks/usePuterTTS.ts`: `updateCurrentWord`;
* `src/src/lib/db.ts`: `updateReadingProgress`.

TypeScript strings are modelled as `List Char` (`Str`), numbers that hold
word counts, ids, character offsets and millisecond clocks as `Nat`,
fractional quantities (seconds, ms-per-word rates) as `ℚ`.
-/

set_option maxHeartbeats 1000000

namespace ReadRot

/-- A TypeScript string, modelled as a list of characters. -/
abbrev Str := List Char

/-- The ASCII part of JavaScript's `\s` character class (the sources only
ever produce ASCII whitespace): space, tab, LF, CR, VT, FF. -/
def isWS (c : Char) : Bool :=
  c = ' ' || c = '\t' || c = '\n' || c = '\r' || c = '\x0b' || c = '\x0c'

/-- JavaScript `String.prototype.trim` (left part). -/
def trimLeft (l : Str) : Str := l.dropWhile isWS

/-- JavaScript `String.prototype.trim`: drop whitespace at both ends. -/
def trim (l : Str) : Str := ((trimLeft l).reverse.dropWhile isWS).reverse

/-- Split on runs of whitespace, dropping empty pieces: the semantics of
`text.split(/\s+/).filter(w => w.length > 0)`.  `acc` is the reversed
current word. -/
def splitWSAux : Str → Str → List Str
  | [], acc => if acc = [] then [] else [acc.reverse]
  | c :: cs, acc =>
    if isWS c then
      if acc = [] then splitWSAux cs [] else acc.reverse :: splitWSAux cs []
    else splitWSAux cs (c :: acc)

def splitWS (l : Str) : List Str := splitWSAux l []

/-- `chunking.ts` `splitIntoWords`:
`text.trim().split(/\s+/).filter(word => word.length > 0)`. -/
def splitIntoWords (text : Str) : List Str := splitWS (trim text)

/-- `chunking.ts` `countWords`: same pipeline as `splitIntoWords`, then
`.length`. -/
def countWords (text : Str) : Nat := (splitIntoWords text).length

/-- `sentences.join(' ')`. -/
def joinSp : List Str → Str
  | [] => []
  | [s] => s
  | s :: s' :: rest => s ++ ' ' :: joinSp (s' :: rest)

-- ==========================================
-- splitIntoSentences (chunking.ts lines 23-63)
-- ==========================================

/-- Word character for the JavaScript `\b` assertion: `[A-Za-z0-9_]`. -/
def isWordChar (c : Char) : Bool :=
  ('a' ≤ c && c ≤ 'z') || ('A' ≤ c && c ≤ 'Z') || ('0' ≤ c && c ≤ '9') || c = '_'

/-- One pattern character of the abbreviation regexes.  A `'.'` inside an
abbreviation such as `i.e` reaches the regex unescaped, so it is the `.`
wildcard (anything but a line terminator); other characters match
literally, case-insensitively iff `ci` is set (the protecting regex has
the `i` flag, the restoring one does not). -/
def patCharMatch (ci : Bool) (p c : Char) : Bool :=
  if p = '.' then !(c = '\n' || c = '\r')
  else if ci then p.toLower = c.toLower else p = c

/-- Match a pattern character list at the head of `s`; on success return
the rest of `s`. -/
def matchSeq (ci : Bool) : Str → Str → Option Str
  | [], s => some s
  | _ :: _, [] => none
  | p :: ps, c :: cs => if patCharMatch ci p c then matchSeq ci ps cs else none

/-- The abbreviation list of `splitIntoSentences`. -/
def ABBREVIATIONS : List Str :=
  ["Mr", "Mrs", "Ms", "Dr", "Prof", "Sr", "Jr", "vs", "etc", "i.e", "e.g"].map
    String.toList

/-- The replacement text `` `${abbr}__PROTECTED${index}__` `` (also the
pattern of the restoring regex). -/
def protectedTag (abbr : Str) (idx : Nat) : Str :=
  abbr ++ "__PROTECTED".toList ++ Nat.toDigits 10 idx ++ "__".toList

/-- Does ``new RegExp(`\b${abbr}\.`, 'gi')`` match at the head of `s`?
All abbreviations start with a letter, so `\b` holds iff the previous
character is not a word character. -/
def matchAbbrDot (abbr : Str) (s : Str) : Bool :=
  match matchSeq true abbr s with
  | some ('.' :: _) => true
  | _ => false

/-- Global replace of ```\b${abbr}\.``` (case-insensitive) by
`protectedTag abbr idx`, scanning left to right.  `skip` counts characters
still inside the previous match, `prev` is the previously consumed
character (for `\b`). -/
def replaceAbbrAux (abbr : Str) (idx : Nat) : Str → Nat → Option Char → Str
  | [], _, _ => []
  | c :: cs, k + 1, _ => replaceAbbrAux abbr idx cs k (some c)
  | c :: cs, 0, prev =>
    if prev.all (fun p => !isWordChar p) && matchAbbrDot abbr (c :: cs) then
      protectedTag abbr idx ++ replaceAbbrAux abbr idx cs abbr.length (some c)
    else c :: replaceAbbrAux abbr idx cs 0 (some c)

/-- The protecting pass: each abbreviation in order, as in the source's
`abbreviations.forEach`. -/
def protectAll (t : Str) : Str :=
  (ABBREVIATIONS.enum).foldl (fun acc p => replaceAbbrAux p.2 p.1 acc 0 none) t

/-- Global replace of ``new RegExp(`${abbr}__PROTECTED${index}__`, 'g')``
by `abbr ++ "."` (case-sensitive, no `\b`). -/
def replaceTagAux (abbr : Str) (idx : Nat) : Str → Nat → Str
  | [], _ => []
  | _ :: cs, k + 1 => replaceTagAux abbr idx cs k
  | c :: cs, 0 =>
    if (matchSeq false (protectedTag abbr idx) (c :: cs)).isSome then
      (abbr ++ ['.']) ++ replaceTagAux abbr idx cs ((protectedTag abbr idx).length - 1)
    else c :: replaceTagAux abbr idx cs 0

/-- The restoring pass mapped over every emitted sentence. -/
def unprotectAll (t : Str) : Str :=
  (ABBREVIATIONS.enum).foldl (fun acc p => replaceTagAux p.2 p.1 acc 0) t

def isPunct (c : Char) : Bool := c = '.' || c = '!' || c = '?'

def isUpperAZ (c : Char) : Bool := 'A' ≤ c && c ≤ 'Z'

/-- The lookahead `(?=\s+[A-Z]|\s*$)` applied to the text following a
punctuation run. -/
def boundaryOK (rest : Str) : Bool :=
  match rest.dropWhile isWS with
  | [] => true
  | c :: _ => !(rest.takeWhile isWS).isEmpty && isUpperAZ c

/-- The `sentenceRegex.exec` loop of `splitIntoSentences`: scan for maximal
runs of `[.!?]+`; a run whose lookahead succeeds closes the sentence
accumulated since the last boundary (trimmed, kept if non-empty); the
trailing remainder is closed the same way.  `skip` counts characters of
the current run already accounted for. -/
def sentScan : Str → Str → Nat → List Str
  | [], acc, _ => if (trim acc).isEmpty then [] else [trim acc]
  | _ :: cs, acc, k + 1 => sentScan cs acc k
  | c :: cs, acc, 0 =>
    if isPunct c then
      let run := (c :: cs).takeWhile isPunct
      let rest := (c :: cs).dropWhile isPunct
      if boundaryOK rest then
        let s := trim (acc ++ run)
        (if s.isEmpty then [] else [s]) ++ sentScan cs [] (run.length - 1)
      else sentScan cs (acc ++ run) (run.length - 1)
    else sentScan cs (acc ++ [c]) 0

/-- `chunking.ts` `splitIntoSentences`. -/
def splitIntoSentences (text : Str) : List Str :=
  (sentScan (protectAll text) [] 0).map unprotectAll

-- ==========================================
-- chunkText (chunking.ts lines 87-178)
-- ==========================================

/-- `text.replace(/\r\n/g, '\n')`. -/
def normCRLF : Str → Str
  | [] => []
  | '\r' :: '\n' :: cs => '\n' :: normCRLF cs
  | c :: cs => c :: normCRLF cs

/-- `.replace(/\n{3,}/g, '\n\n')`. -/
def collapseNLAux : Str → Nat → Str
  | [], _ => []
  | _ :: cs, k + 1 => collapseNLAux cs k
  | c :: cs, 0 =>
    if c = '\n' then
      let n := 1 + (cs.takeWhile (fun d => d = '\n')).length
      (if 3 ≤ n then ['\n', '\n'] else List.replicate n '\n') ++ collapseNLAux cs (n - 1)
    else c :: collapseNLAux cs 0

/-- `.replace(/[ \t]+/g, ' ')`. -/
def collapseSpAux : Str → Nat → Str
  | [], _ => []
  | _ :: cs, k + 1 => collapseSpAux cs k
  | c :: cs, 0 =>
    if c = ' ' || c = '\t' then
      let n := 1 + (cs.takeWhile (fun d => d = ' ' || d = '\t')).length
      ' ' :: collapseSpAux cs (n - 1)
    else c :: collapseSpAux cs 0

/-- The whitespace normalisation of `chunkText` (lines 92-96). -/
def normalizeText (t : Str) : Str :=
  trim (collapseSpAux (collapseNLAux (normCRLF t) 0) 0)

/-- `cleanedText.split(/\n\n+/)`: split on runs of two or more newlines,
keeping empty pieces, as JavaScript `split` does.  `acc` is the reversed
current piece. -/
def splitParasAux : Str → Str → Nat → List Str
  | [], acc, _ => [acc.reverse]
  | _ :: cs, acc, k + 1 => splitParasAux cs acc k
  | c :: cs, acc, 0 =>
    if c = '\n' then
      match cs with
      | '\n' :: _ =>
        let n := 1 + (cs.takeWhile (fun d => d = '\n')).length
        acc.reverse :: splitParasAux cs [] (n - 1)
      | _ => splitParasAux cs ('\n' :: acc) 0
    else splitParasAux cs (c :: acc) 0

def splitParas (t : Str) : List Str := splitParasAux t [] 0

/-- `types/index.ts` `ChunkOptions`: every field optional. -/
structure ChunkOptions where
  targetWords : Option Nat
  maxWords : Option Nat
  minWords : Option Nat
  preserveParagraphs : Option Bool
deriving DecidableEq

/-- `Required<ChunkOptions>`, the options actually used by the loop. -/
structure ResolvedOptions where
  targetWords : Nat
  maxWords : Nat
  minWords : Nat
  preserveParagraphs : Bool
deriving DecidableEq

/-- `chunking.ts` `DEFAULT_OPTIONS`. -/
def DEFAULT_OPTIONS : ResolvedOptions :=
  { targetWords := 40, maxWords := 60, minWords := 20, preserveParagraphs := true }

/-- `const opts = { ...DEFAULT_OPTIONS, ...options }` with `options`
possibly omitted: a field that is absent falls back to the default. -/
def mergeDefaults : Option ChunkOptions → ResolvedOptions
  | none => DEFAULT_OPTIONS
  | some o =>
    { targetWords := o.targetWords.getD DEFAULT_OPTIONS.targetWords
      maxWords := o.maxWords.getD DEFAULT_OPTIONS.maxWords
      minWords := o.minWords.getD DEFAULT_OPTIONS.minWords
      preserveParagraphs := o.preserveParagraphs.getD DEFAULT_OPTIONS.preserveParagraphs }

/-- The spec's validity constraints on a chunking policy (`spec.md` §3). -/
def validPolicy (opts : ResolvedOptions) : Prop :=
  0 < opts.minWords ∧ opts.minWords ≤ opts.targetWords ∧
    opts.targetWords ≤ opts.maxWords

instance : DecidablePred validPolicy := fun _ => by unfold validPolicy; infer_instance

/-- `types/index.ts` `Chunk`.  The `sentences` field is a ghost field
recording the `currentChunkSentences` buffer at the push site; the source
stores only its join, and `text = joinSp sentences` holds by
construction. -/
structure Chunk where
  id : Nat
  sentences : List Str
  text : Str
  words : List Str
  startPosition : Nat
  endPosition : Nat
deriving DecidableEq

/-- The mutable locals of the `chunkText` loop (lines 103-106). -/
structure BuildState where
  chunks : List Chunk
  cur : List Str
  curCount : Nat
  startPos : Nat
  nextId : Nat
deriving DecidableEq

def initState : BuildState := ⟨[], [], 0, 0, 0⟩

/-- The chunk-finalising block, identical at its four occurrence sites
(lines 116-126, 135-145, 151-161, 167-174). -/
def pushChunk (st : BuildState) : BuildState :=
  let t := joinSp st.cur
  { chunks := st.chunks ++
      [{ id := st.nextId, sentences := st.cur, text := t,
         words := splitIntoWords t, startPosition := st.startPos,
         endPosition := st.startPos + t.length }]
    cur := []
    curCount := 0
    startPos := st.startPos + t.length + 1
    nextId := st.nextId + 1 }

/-- Lines 114-127: if adding the sentence would exceed `maxWords` and the
buffer is non-empty, finalise the current chunk first. -/
def stepMax (opts : ResolvedOptions) (st : BuildState) (s : Str) : BuildState :=
  if opts.maxWords < st.curCount + countWords s ∧ st.cur ≠ [] then pushChunk st else st

/-- Lines 129-131: append the sentence to the current chunk. -/
def stepAppend (st : BuildState) (s : Str) : BuildState :=
  { st with cur := st.cur ++ [s], curCount := st.curCount + countWords s }

/-- Lines 133-146: finalise once `targetWords` is reached. -/
def stepTarget (opts : ResolvedOptions) (st : BuildState) : BuildState :=
  if opts.targetWords ≤ st.curCount then pushChunk st else st

/-- The body of `for (const sentence of sentences)` (lines 111-147). -/
def stepSentence (opts : ResolvedOptions) (st : BuildState) (s : Str) : BuildState :=
  stepTarget opts (stepAppend (stepMax opts st s) s)

/-- Lines 149-162: at a paragraph boundary, finalise if the buffer has at
least `minWords` words. -/
def stepParaFlush (opts : ResolvedOptions) (st : BuildState) : BuildState :=
  if opts.preserveParagraphs ∧ opts.minWords ≤ st.curCount then pushChunk st else st

/-- The body of `for (const paragraph of paragraphs)` (lines 108-163). -/
def stepParagraph (opts : ResolvedOptions) (st : BuildState) (p : Str) : BuildState :=
  stepParaFlush opts ((splitIntoSentences (trim p)).foldl (stepSentence opts) st)

/-- Lines 165-175: any remaining buffered sentences become a final chunk. -/
def finalFlush (st : BuildState) : BuildState :=
  if st.cur ≠ [] then pushChunk st else st

/-- `chunkText` with the options already resolved. -/
def chunkTextResolved (opts : ResolvedOptions) (text : Str) : List Chunk :=
  (((if opts.preserveParagraphs then splitParas (normalizeText text)
      else [normalizeText text]).foldl (stepParagraph opts) initState) |> finalFlush).chunks

/-- `chunking.ts` `chunkText(text, options?)`. -/
def chunkText (text : Str) (options : Option ChunkOptions) : List Chunk :=
  chunkTextResolved (mergeDefaults options) text

/-- The sentences of the whitespace-normalised input, exactly as the loop
enumerates them (paragraph by paragraph). -/
def inputSentences (opts : ResolvedOptions) (text : Str) : List Str :=
  (if opts.preserveParagraphs then splitParas (normalizeText text)
   else [normalizeText text]).flatMap (fun p => splitIntoSentences (trim p))

-- ==========================================
-- Word-splitting lemmas
-- ==========================================

lemma splitWSAux_all_ws (ws : Str) (acc : Str) (h : ∀ c ∈ ws, isWS c = true) :
    splitWSAux ws acc = if acc = [] then [] else [acc.reverse] := by
  induction ws generalizing acc with
  | nil => rfl
  | cons c cs ih =>
    have hc : isWS c = true := h c (by simp)
    have ih0 := ih [] (fun d hd => h d (by simp [hd]))
    by_cases ha : acc = [] <;> simp [splitWSAux, hc, ha, ih0]

lemma splitWSAux_append_ws (l ws : Str) (h : ∀ c ∈ ws, isWS c = true) (acc : Str) :
    splitWSAux (l ++ ws) acc = splitWSAux l acc := by
  induction l generalizing acc with
  | nil =>
    simp only [List.nil_append]
    rw [splitWSAux_all_ws ws acc h]
    rfl
  | cons c cs ih =>
    by_cases hc : isWS c = true <;> by_cases ha : acc = [] <;>
      simp [splitWSAux, hc, ha, ih]

lemma splitWSAux_dropWhile (l : Str) : splitWSAux (l.dropWhile isWS) [] = splitWSAux l [] := by
  induction l with
  | nil => rfl
  | cons c cs ih =>
    by_cases hc : isWS c = true <;> simp [List.dropWhile_cons, hc, splitWSAux, ih]

lemma splitWS_trim (l : Str) : splitWS (trim l) = splitWS l := by
  unfold splitWS trim trimLeft
  rw [← splitWSAux_dropWhile l]
  have hdec : l.dropWhile isWS =
      ((l.dropWhile isWS).reverse.dropWhile isWS).reverse ++
        ((l.dropWhile isWS).reverse.takeWhile isWS).reverse := by
    conv_lhs => rw [← List.reverse_reverse (l.dropWhile isWS)]
    rw [← List.reverse_append, List.takeWhile_append_dropWhile]
  conv_rhs => rw [hdec]
  rw [splitWSAux_append_ws]
  intro c hc
  exact List.mem_takeWhile_imp (List.mem_reverse.mp hc)

lemma splitWSAux_append_space (a b : Str) (acc : Str) :
    splitWSAux (a ++ ' ' :: b) acc = splitWSAux a acc ++ splitWS b := by
  induction a generalizing acc with
  | nil =>
    by_cases ha : acc = [] <;> simp [splitWSAux, isWS, ha, splitWS]
  | cons c cs ih =>
    by_cases hc : isWS c = true <;> by_cases ha : acc = [] <;>
      simp [splitWSAux, hc, ha, ih]

lemma splitWS_joinSp (ss : List Str) :
    splitWS (joinSp ss) = ss.flatMap splitWS := by
  induction ss with
  | nil => rfl
  | cons s rest ih =>
    cases rest with
    | nil => simp [joinSp]
    | cons s' rest' =>
      show splitWS (s ++ ' ' :: joinSp (s' :: rest')) = _
      unfold splitWS
      rw [splitWSAux_append_space, ih]
      simp only [List.flatMap_cons, splitWS]
      rfl

lemma splitIntoWords_joinSp (ss : List Str) :
    splitIntoWords (joinSp ss) = ss.flatMap splitIntoWords := by
  unfold splitIntoWords
  rw [splitWS_trim, splitWS_joinSp]
  exact List.flatMap_congr (fun s _ => (splitWS_trim s).symm)

lemma length_flatMap_words (ss : List Str) :
    (ss.flatMap splitIntoWords).length = (ss.map countWords).sum := by
  induction ss with
  | nil => rfl
  | cons s rest ih => simp [List.flatMap_cons, ih, countWords]

lemma countWords_joinSp (ss : List Str) :
    (splitIntoWords (joinSp ss)).length = (ss.map countWords).sum := by
  rw [splitIntoWords_joinSp, length_flatMap_words]

lemma joinSp_ne_nil (ss : List Str) (h : ss ≠ []) (h1 : ∀ s ∈ ss, s ≠ []) :
    joinSp ss ≠ [] := by
  match ss with
  | [s] => exact h1 s (by simp)
  | s :: s' :: rest =>
    show s ++ ' ' :: joinSp (s' :: rest) ≠ []
    simp

-- ==========================================
-- Sentences are non-empty strings
-- ==========================================

lemma sentScan_ne_nil (l : Str) : ∀ (acc : Str) (k : Nat), ∀ s ∈ sentScan l acc k, s ≠ [] := by
  induction l with
  | nil =>
    intro acc k s hs
    unfold sentScan at hs
    by_cases h : (trim acc).isEmpty = true <;> simp [h] at hs
    · rcases hs with rfl
      simpa [List.isEmpty_iff] using h
  | cons c cs ih =>
    intro acc k s hs
    match k with
    | k + 1 => exact ih acc k s hs
    | 0 =>
      unfold sentScan at hs
      by_cases hp : isPunct c = true
      · simp only [hp, if_true] at hs
        by_cases hb : boundaryOK ((c :: cs).dropWhile isPunct) = true
        · simp only [hb, if_true, List.mem_append] at hs
          rcases hs with hs | hs
          · by_cases he : (trim (acc ++ (c :: cs).takeWhile isPunct)).isEmpty = true <;>
              simp [he] at hs
            rcases hs with rfl
            simpa [List.isEmpty_iff] using he
          · exact ih _ _ s hs
        · simp only [hb, if_false] at hs
          exact ih _ _ s hs
      · simp only [hp, if_false] at hs
        exact ih _ _ s hs

lemma replaceTagAux_ne_nil (abbr : Str) (idx : Nat) (l : Str) (h : l ≠ []) :
    replaceTagAux abbr idx l 0 ≠ [] := by
  match l with
  | c :: cs =>
    unfold replaceTagAux
    by_cases hm : (matchSeq false (protectedTag abbr idx) (c :: cs)).isSome = true <;>
      simp [hm]

lemma unprotectAll_ne_nil (t : Str) (h : t ≠ []) : unprotectAll t ≠ [] := by
  unfold unprotectAll
  generalize ABBREVIATIONS.enum = ps
  induction ps generalizing t with
  | nil => exact h
  | cons p ps ih =>
    simp only [List.foldl_cons]
    exact ih _ (replaceTagAux_ne_nil p.2 p.1 t h)

lemma splitIntoSentences_ne_nil (text : Str) : ∀ s ∈ splitIntoSentences text, s ≠ [] := by
  intro s hs
  unfold splitIntoSentences at hs
  rcases List.mem_map.mp hs with ⟨u, hu, rfl⟩
  exact unprotectAll_ne_nil u (sentScan_ne_nil _ _ _ u hu)

-- ==========================================
-- The chunk-builder invariant
-- ==========================================

/-- The part of the loop invariant that `pushChunk` needs. -/
structure PreInv (opts : ResolvedOptions) (st : BuildState) : Prop where
  count_eq : st.curCount = (st.cur.map countWords).sum
  cur_ne : ∀ s ∈ st.cur, s ≠ []
  id_eq : st.nextId = st.chunks.length
  ids : st.chunks.map Chunk.id = List.range st.chunks.length
  good : ∀ c ∈ st.chunks,
    c.words.length ≤ opts.maxWords ∨ ∃ s, c.sentences = [s] ∧ opts.maxWords < countWords s
  pos_lt : ∀ c ∈ st.chunks, c.startPosition < c.endPosition
  pos_le : ∀ c ∈ st.chunks, c.endPosition ≤ st.startPos
  chain : st.chunks.Chain' (fun a b => a.endPosition ≤ b.startPosition)

/-- The full loop invariant: between sentence steps the running buffer is
below `targetWords` (or empty, right after a flush). -/
structure Inv (opts : ResolvedOptions) (st : BuildState) extends PreInv opts st : Prop where
  cur_lt : st.curCount < opts.targetWords ∨ st.cur = []

lemma initState_inv (opts : ResolvedOptions) : Inv opts initState := by
  refine ⟨⟨rfl, ?_, rfl, rfl, ?_, ?_, ?_, ?_⟩, ?_⟩ <;> simp [initState]

lemma pushChunk_inv (opts : ResolvedOptions) (st : BuildState) (hInv : PreInv opts st)
    (hne : st.cur ≠ [])
    (hgood : (st.cur.map countWords).sum ≤ opts.maxWords ∨
      ∃ s, st.cur = [s] ∧ opts.maxWords < countWords s) :
    Inv opts (pushChunk st) := by
  have htext : joinSp st.cur ≠ [] := joinSp_ne_nil st.cur hne hInv.cur_ne
  refine ⟨⟨rfl, by simp [pushChunk], ?_, ?_, ?_, ?_, ?_, ?_⟩, Or.inr rfl⟩
  · simp [pushChunk, hInv.id_eq]
  · simp only [pushChunk, List.map_append, List.length_append, List.map_cons, List.map_nil,
      List.length_cons, List.length_nil]
    rw [hInv.ids, hInv.id_eq]
    simp [List.range_succ]
  · intro c hc
    simp only [pushChunk, List.mem_append, List.mem_singleton] at hc
    rcases hc with hc | rfl
    · exact hInv.good c hc
    · rcases hgood with hg | ⟨s, hcur, hs⟩
      · left
        simpa [countWords_joinSp] using hg
      · right
        exact ⟨s, by simp [hcur], hs⟩
  · intro c hc
    simp only [pushChunk, List.mem_append, List.mem_singleton] at hc
    rcases hc with hc | rfl
    · exact hInv.pos_lt c hc
    · simp only []
      have : 0 < (joinSp st.cur).length := List.length_pos.mpr htext
      omega
  · intro c hc
    simp only [pushChunk, List.mem_append, List.mem_singleton] at hc
    rcases hc with hc | rfl
    · have := hInv.pos_le c hc
      simp only [pushChunk]
      omega
    · simp only [pushChunk]
      omega
  · simp only [pushChunk]
    refine List.Chain'.append hInv.chain (List.chain'_singleton _) ?_
    intro x hx y hy
    simp only [List.head?_cons, Option.mem_def, Option.some.injEq] at hy
    rcases List.mem_getLast?_eq_getLast hx with ⟨hne', rfl⟩
    subst hy
    exact hInv.pos_le _ (List.getLast_mem hne')

/-- Appending a sentence to the buffer preserves the `PreInv` part. -/
lemma append_preinv (opts : ResolvedOptions) (st : BuildState) (s : Str)
    (hInv : PreInv opts st) (hs : s ≠ []) :
    PreInv opts (stepAppend st s) := by
  refine ⟨?_, ?_, hInv.id_eq, hInv.ids, hInv.good, hInv.pos_lt, hInv.pos_le, hInv.chain⟩
  · simp [stepAppend, hInv.count_eq]
  · intro u hu
    rcases List.mem_append.mp hu with hu | hu
    · exact hInv.cur_ne u hu
    · rcases List.mem_singleton.mp hu with rfl
      exact hs

lemma stepSentence_inv (opts : ResolvedOptions) (st : BuildState) (s : Str)
    (hv : validPolicy opts) (hInv : Inv opts st) (hs : s ≠ []) :
    Inv opts (stepSentence opts st s) := by
  obtain ⟨hmin, hmt, htm⟩ := hv
  unfold stepSentence
  have hst1 : Inv opts (stepMax opts st s) ∧
      ((stepMax opts st s).cur = [] ∨
        (stepMax opts st s).curCount + countWords s ≤ opts.maxWords) := by
    unfold stepMax
    by_cases h1 : opts.maxWords < st.curCount + countWords s ∧ st.cur ≠ []
    · rw [if_pos h1]
      refine ⟨?_, Or.inl rfl⟩
      refine pushChunk_inv opts st hInv.toPreInv h1.2 (Or.inl ?_)
      rw [← hInv.count_eq]
      rcases hInv.cur_lt with hlt | hnil
      · omega
      · exact absurd hnil h1.2
    · rw [if_neg h1]
      refine ⟨hInv, ?_⟩
      rcases not_and_or.mp h1 with h | h
      · right; omega
      · left; exact not_not.mp h
  obtain ⟨hInv1, halt⟩ := hst1
  set st1 := stepMax opts st s with hst1def
  have hpre2 : PreInv opts (stepAppend st1 s) := append_preinv opts st1 s hInv1.toPreInv hs
  have hcur2 : (stepAppend st1 s).cur = st1.cur ++ [s] := rfl
  have hcount2 : (stepAppend st1 s).curCount = st1.curCount + countWords s := rfl
  unfold stepTarget
  by_cases h2 : opts.targetWords ≤ (stepAppend st1 s).curCount
  · rw [if_pos h2]
    refine pushChunk_inv opts (stepAppend st1 s) hpre2 (by simp [hcur2]) ?_
    rcases halt with hnil | hfit
    · have hone : (stepAppend st1 s).cur = [s] := by rw [hcur2, hnil]; rfl
      by_cases hbig : opts.maxWords < countWords s
      · exact Or.inr ⟨s, hone, hbig⟩
      · left
        rw [← hpre2.count_eq, hcount2]
        have h0 : st1.curCount = 0 := by
          rw [hInv1.count_eq, hnil]; rfl
        omega
    · left
      rw [← hpre2.count_eq, hcount2]
      omega
  · rw [if_neg h2]
    exact ⟨hpre2, Or.inl (by omega)⟩

lemma foldl_stepSentence_inv (opts : ResolvedOptions) (ss : List Str) (st : BuildState)
    (hv : validPolicy opts) (hInv : Inv opts st) (hss : ∀ s ∈ ss, s ≠ []) :
    Inv opts (ss.foldl (stepSentence opts) st) := by
  induction ss generalizing st with
  | nil => exact hInv
  | cons s rest ih =>
    simp only [List.foldl_cons]
    exact ih _ (stepSentence_inv opts st s hv hInv (hss s (by simp)))
      (fun u hu => hss u (by simp [hu]))

lemma stepParagraph_inv (opts : ResolvedOptions) (st : BuildState) (p : Str)
    (hv : validPolicy opts) (hInv : Inv opts st) :
    Inv opts (stepParagraph opts st p) := by
  have hInv' := foldl_stepSentence_inv opts (splitIntoSentences (trim p)) st hv hInv
    (splitIntoSentences_ne_nil (trim p))
  unfold stepParagraph stepParaFlush
  set st' := (splitIntoSentences (trim p)).foldl (stepSentence opts) st
  by_cases h : opts.preserveParagraphs = true ∧ opts.minWords ≤ st'.curCount
  · rw [if_pos h]
    obtain ⟨hmin, hmt, htm⟩ := hv
    have hne : st'.cur ≠ [] := by
      intro hnil
      have h0 : st'.curCount = 0 := by rw [hInv'.count_eq, hnil]; rfl
      omega
    refine pushChunk_inv opts st' hInv'.toPreInv hne (Or.inl ?_)
    rw [← hInv'.count_eq]
    rcases hInv'.cur_lt with hlt | hnil
    · omega
    · exact absurd hnil hne
  · rw [if_neg h]
    exact hInv'

lemma finalFlush_inv (opts : ResolvedOptions) (st : BuildState)
    (hv : validPolicy opts) (hInv : Inv opts st) : Inv opts (finalFlush st) := by
  unfold finalFlush
  obtain ⟨hmin, hmt, htm⟩ := hv
  by_cases h : st.cur ≠ []
  · rw [if_pos h]
    refine pushChunk_inv opts st hInv.toPreInv h (Or.inl ?_)
    rw [← hInv.count_eq]
    rcases hInv.cur_lt with hlt | hnil
    · omega
    · exact absurd hnil h
  · rw [if_neg h]
    exact hInv

lemma chunkTextResolved_inv (opts : ResolvedOptions) (text : Str) (hv : validPolicy opts) :
    ∃ st : BuildState, chunkTextResolved opts text = st.chunks ∧ Inv opts st := by
  unfold chunkTextResolved
  set paragraphs := if opts.preserveParagraphs then splitParas (normalizeText text)
    else [normalizeText text] with hps
  have hInvF : Inv opts (paragraphs.foldl (stepParagraph opts) initState) := by
    have hgen : ∀ (ps : List Str) (st : BuildState), Inv opts st →
        Inv opts (ps.foldl (stepParagraph opts) st) := by
      intro ps
      induction ps with
      | nil => intro st h; exact h
      | cons p rest ih =>
        intro st h
        simp only [List.foldl_cons]
        exact ih _ (stepParagraph_inv opts st p hv h)
    exact hgen paragraphs initState (initState_inv opts)
  exact ⟨_, rfl, finalFlush_inv opts _ hv hInvF⟩

-- ==========================================
-- Sentence bookkeeping (no validity needed)
-- ==========================================

/-- All sentences seen so far: those already committed to chunks plus the
running buffer. -/
def sentsAcc (st : BuildState) : List Str :=
  st.chunks.flatMap Chunk.sentences ++ st.cur

lemma sentsAcc_pushChunk (st : BuildState) : sentsAcc (pushChunk st) = sentsAcc st := by
  simp [sentsAcc, pushChunk]

lemma sentsAcc_stepMax (opts : ResolvedOptions) (st : BuildState) (s : Str) :
    sentsAcc (stepMax opts st s) = sentsAcc st := by
  unfold stepMax
  split
  · exact sentsAcc_pushChunk st
  · rfl

lemma sentsAcc_stepAppend (st : BuildState) (s : Str) :
    sentsAcc (stepAppend st s) = sentsAcc st ++ [s] := by
  simp [sentsAcc, stepAppend]

lemma sentsAcc_stepTarget (opts : ResolvedOptions) (st : BuildState) :
    sentsAcc (stepTarget opts st) = sentsAcc st := by
  unfold stepTarget
  split
  · exact sentsAcc_pushChunk st
  · rfl

lemma sentsAcc_stepSentence (opts : ResolvedOptions) (st : BuildState) (s : Str) :
    sentsAcc (stepSentence opts st s) = sentsAcc st ++ [s] := by
  unfold stepSentence
  rw [sentsAcc_stepTarget, sentsAcc_stepAppend, sentsAcc_stepMax]

lemma sentsAcc_foldl_sentences (opts : ResolvedOptions) (ss : List Str) (st : BuildState) :
    sentsAcc (ss.foldl (stepSentence opts) st) = sentsAcc st ++ ss := by
  induction ss generalizing st with
  | nil => simp
  | cons s rest ih =>
    simp only [List.foldl_cons]
    rw [ih, sentsAcc_stepSentence]
    simp

lemma sentsAcc_stepParaFlush (opts : ResolvedOptions) (st : BuildState) :
    sentsAcc (stepParaFlush opts st) = sentsAcc st := by
  unfold stepParaFlush
  split
  · exact sentsAcc_pushChunk st
  · rfl

lemma sentsAcc_stepParagraph (opts : ResolvedOptions) (st : BuildState) (p : Str) :
    sentsAcc (stepParagraph opts st p) = sentsAcc st ++ splitIntoSentences (trim p) := by
  unfold stepParagraph
  rw [sentsAcc_stepParaFlush, sentsAcc_foldl_sentences]

lemma chunkTextResolved_sentences (opts : ResolvedOptions) (text : Str) :
    (chunkTextResolved opts text).flatMap Chunk.sentences = inputSentences opts text := by
  unfold chunkTextResolved inputSentences
  set paragraphs := if opts.preserveParagraphs then splitParas (normalizeText text)
    else [normalizeText text] with hps
  have hfold : ∀ (ps : List Str) (st : BuildState),
      sentsAcc (ps.foldl (stepParagraph opts) st) =
        sentsAcc st ++ ps.flatMap (fun p => splitIntoSentences (trim p)) := by
    intro ps
    induction ps with
    | nil => simp
    | cons p rest ih =>
      intro st
      simp only [List.foldl_cons]
      rw [ih, sentsAcc_stepParagraph]
      simp
  have hF := hfold paragraphs initState
  set F := paragraphs.foldl (stepParagraph opts) initState
  have hinit : sentsAcc initState = [] := rfl
  have hflush : sentsAcc (finalFlush F) = sentsAcc F := by
    unfold finalFlush
    split
    · exact sentsAcc_pushChunk F
    · rfl
  have hcurnil : (finalFlush F).cur = [] := by
    unfold finalFlush
    by_cases h : F.cur ≠ []
    · rw [if_pos h]; rfl
    · rw [if_neg h]; exact not_not.mp h
  have : sentsAcc (finalFlush F) =
      paragraphs.flatMap (fun p => splitIntoSentences (trim p)) := by
    rw [hflush, hF, hinit]; simp
  rw [← this]
  simp [sentsAcc, hcurnil]

-- ==========================================
-- useTTS.ts: heuristic word-index estimator
-- ==========================================

/-- `useTTS.ts` lines 98-101: milliseconds per word from the configured
150 wpm baseline and the rate multiplier. -/
def msPerWord (rate : ℚ) : ℚ := 1000 / ((150 / 60) * rate)

/-- `Math.floor(elapsed / msPerWord)` for a non-negative elapsed time. -/
def expIdx (m : ℚ) (elapsed : ℕ) : ℕ := (⌊(elapsed : ℚ) / m⌋).toNat

/-- The estimator's mutable state: the `currentIndex` local and whether the
`setInterval` timer is still installed. -/
structure EstState where
  currentIndex : ℕ
  active : Bool
deriving DecidableEq

/-- Lines 112-115: emit `expectedIndex` when it changed and is in range. -/
def estEmit (len expected : ℕ) (st : EstState) : EstState × List ℕ :=
  if expected ≠ st.currentIndex ∧ expected < len then
    ({ st with currentIndex := expected }, [expected])
  else (st, [])

/-- Lines 117-121: clear the timer once `expectedIndex >= words.length - 1`. -/
def estStop (len expected : ℕ) (p : EstState × List ℕ) : EstState × List ℕ :=
  if len - 1 ≤ expected then ({ p.1 with active := false }, p.2) else p

/-- One `setInterval` callback of `startWordEstimation` (lines 108-122),
sampled at elapsed time `e`.  A cleared timer no longer fires.  Returns
the new state and the emitted indices. -/
def estTick (len : ℕ) (m : ℚ) (st : EstState) (e : ℕ) : EstState × List ℕ :=
  if st.active = false then (st, [])
  else estStop len (expIdx m e) (estEmit len (expIdx m e) st)

/-- Run the interval callback over a list of elapsed-time samples. -/
def estRun (len : ℕ) (m : ℚ) : EstState → List ℕ → List ℕ
  | _, [] => []
  | st, e :: es => (estTick len m st e).2 ++ estRun len m (estTick len m st e).1 es

/-- `useTTS.ts` `startWordEstimation` (lines 92-123): the emitted
`setCurrentWordIndex` values of one run — the unconditional initial
`setCurrentWordIndex(0)` followed by the interval callbacks. -/
def startWordEstimation (len : ℕ) (m : ℚ) (samples : List ℕ) : List ℕ :=
  0 :: estRun len m ⟨0, true⟩ samples

/-- `useTTS.ts` `resume` (lines 213-221): restart the estimation over
`wordsRef.current.slice(currentWordIndex)` — a word list of length
`len - pausedIndex` — at the same rate.  The indices it emits are the
absolute highlight positions passed to `setCurrentWordIndex`. -/
def resumeEstimation (pausedIndex len : ℕ) (m : ℚ) (samples : List ℕ) : List ℕ :=
  startWordEstimation (len - pausedIndex) m samples

-- ==========================================
-- page.tsx: extractWordTimings
-- ==========================================

/-- `types/index.ts` `WordTiming` (`end` is a Lean keyword, hence the
guillemets). -/
structure WordTiming where
  word : Str
  start : ℤ
  «end» : ℤ
deriving DecidableEq

instance : Inhabited WordTiming := ⟨⟨[], 0, 0⟩⟩

/-- JavaScript `Math.round`: half-way cases round toward `+∞`. -/
def jsRound (q : ℚ) : ℤ := ⌊q + 1 / 2⌋

/-- The word-boundary test of `extractWordTimings` (line 250):
`char === ' ' || char === '\n' || char === '\t'`.  Each alignment entry is
a JavaScript string, compared whole. -/
def isWordBreak (c : Str) : Bool := c = [' '] || c = ['\n'] || c = ['\t']

/-- The loop of `extractWordTimings` (lines 244-276) over the zipped
`(characters[i], startTimes[i], endTimes[i])` triples, carrying the
`currentWord`/`wordStart`/`wordEnd` locals.  A closing word is pushed with
`Math.round(x * 1000)` applied to its recorded start and end seconds. -/
def ewtAux : List (Str × ℚ × ℚ) → Str → ℚ → ℚ → List WordTiming
  | [], cw, ws, we =>
    if cw ≠ [] then [⟨cw, jsRound (ws * 1000), jsRound (we * 1000)⟩] else []
  | (c, st, en) :: rest, cw, ws, we =>
    if isWordBreak c then
      (if cw ≠ [] then [⟨cw, jsRound (ws * 1000), jsRound (we * 1000)⟩] else []) ++
        ewtAux rest [] ws we
    else
      ewtAux rest (cw ++ c) (if cw = [] then st else ws) en

/-- `page.tsx` `extractWordTimings(characters, startTimes, endTimes)`.
As in the source, `wordStart`/`wordEnd` start at `0`. -/
def extractWordTimings (chars : List Str) (starts ends : List ℚ) : List WordTiming :=
  ewtAux (chars.zip (starts.zip ends)) [] 0 0

/-- Non-breaking alignment entry. -/
def nbChar (u : Str × ℚ × ℚ) : Bool := !isWordBreak u.1

/-- Modelled from the spec (§4.4): the groups of consecutive
non-whitespace characters, whitespace closing a group and the trailing
group closing at end of input. -/
def specGroups : List (Str × ℚ × ℚ) → List (List (Str × ℚ × ℚ))
  | [] => []
  | x :: xs =>
    if isWordBreak x.1 then specGroups xs
    else (x :: xs.takeWhile nbChar) :: specGroups (xs.dropWhile nbChar)
termination_by l => l.length
decreasing_by
  · simp
  · simp only [List.length_cons]
    have := (List.dropWhile_sublist (l := xs) nbChar).length_le
    omega

/-- Modelled from the spec (§4.4): one group becomes one `WordTiming`:
word = concatenation of the group's characters, start = the group's first
character start, end = the group's last character end, seconds converted
to milliseconds by rounding. -/
def specEntry (g : List (Str × ℚ × ℚ)) : WordTiming :=
  { word := (g.map (fun u => u.1)).flatten
    start := jsRound ((g.headD default).2.1 * 1000)
    «end» := jsRound (((g.map (fun u => u.2.2)).getLastD 0) * 1000) }

/-- Modelled from the spec (§4.4): the full alignment reduction, built
from the spec's words rather than from the source loop. -/
def specWordTimings (chars : List Str) (starts ends : List ℚ) : List WordTiming :=
  (specGroups (chars.zip (starts.zip ends))).map specEntry

-- ==========================================
-- usePuterTTS.ts: updateCurrentWord
-- ==========================================

/-- `i < timings.length - 1 && currentTime < timings[i + 1].start`, seen
from position `i`: there is a next entry and the time is before its start. -/
def gapNext (t : ℚ) : List WordTiming → Bool
  | [] => false
  | w' :: _ => decide (t < (w'.start : ℚ))

/-- The `for` loop of `updateCurrentWord` (lines 417-428): first entry
whose `[start, end)` window contains the time, else the `i+1` gap rule;
`-1` if no entry matches.  `i` is the absolute index of the head. -/
def findLoop (t : ℚ) : List WordTiming → ℕ → ℤ
  | [], _ => -1
  | w :: rest, i =>
    if (w.start : ℚ) ≤ t ∧ t < (w.«end» : ℚ) then (i : ℤ)
    else if (w.«end» : ℚ) ≤ t ∧ gapNext t rest = true then (i : ℤ) + 1
    else findLoop t rest (i + 1)

/-- `usePuterTTS.ts` `updateCurrentWord` (lines 410-433): the resolved
word index for playback time `t` (milliseconds), including the past-the-end
fallback to the last word. -/
def updateCurrentWord (timings : List WordTiming) (t : ℚ) : ℤ :=
  let newIndex := findLoop t timings 0
  if newIndex = -1 ∧ timings ≠ [] ∧ ((timings.getLastD default).start : ℚ) ≤ t then
    (timings.length : ℤ) - 1
  else newIndex

-- ==========================================
-- db.ts: updateReadingProgress
-- ==========================================

/-- `types/index.ts` `BookSettings`. -/
structure BookSettings where
  backgroundId : Str
  musicId : Option Str
  ttsVoice : Option Str
  ttsVoiceId : Option Str
  ttsSpeed : ℚ
  wordsPerChunk : ℕ
deriving DecidableEq

/-- `types/index.ts` `Book`. -/
structure Book where
  id : Str
  title : Str
  author : Option Str
  text : Str
  chunks : List Chunk
  createdAt : ℕ
  lastReadAt : Option ℕ
  lastChunkIndex : ℕ
  settings : BookSettings
deriving DecidableEq

/-- The IndexedDB `books` object store, keyed by `Book.id`. -/
abbrev BookStore := List Book

/-- `db.get('books', id)`. -/
def dbGet (store : BookStore) (bid : Str) : Option Book :=
  store.find? (fun b => b.id = bid)

/-- `db.put('books', book)` on a store with `keyPath: 'id'`:
insert-or-replace by key. -/
def dbPut (store : BookStore) (book : Book) : BookStore :=
  if store.any (fun b => b.id = book.id) then
    store.map (fun b => if b.id = book.id then book else b)
  else store ++ [book]

/-- `db.ts` `updateReadingProgress(id, chunkIndex)`; `Date.now()` is the
parameter `now`. -/
def updateReadingProgress (store : BookStore) (bid : Str) (chunkIndex : ℕ)
    (now : ℕ) : BookStore :=
  match dbGet store bid with
  | none => store
  | some book => dbPut store { book with lastChunkIndex := chunkIndex, lastReadAt := some now }

-- ==========================================
-- Estimator lemmas
-- ==========================================

lemma expIdx_mono (m : ℚ) (hm : 0 < m) {e e' : ℕ} (h : e ≤ e') :
    expIdx m e ≤ expIdx m e' := by
  unfold expIdx
  have hdiv : (e : ℚ) / m ≤ (e' : ℚ) / m :=
    (div_le_div_iff_of_pos_right hm).mpr (by exact_mod_cast h)
  exact Int.toNat_le_toNat (Int.floor_le_floor hdiv)

/-- Exactly what one tick can do: either emit nothing and keep the index,
or emit the (in-range) expected index and store it. -/
lemma estTick_cases (len : ℕ) (m : ℚ) (st : EstState) (e : ℕ) :
    ((estTick len m st e).2 = [] ∧ (estTick len m st e).1.currentIndex = st.currentIndex) ∨
    ((estTick len m st e).2 = [expIdx m e] ∧
      (estTick len m st e).1.currentIndex = expIdx m e ∧ expIdx m e < len) := by
  unfold estTick estStop estEmit
  by_cases ha : st.active = false
  · rw [if_pos ha]
    exact Or.inl ⟨rfl, rfl⟩
  · rw [if_neg ha]
    by_cases hc : expIdx m e ≠ st.currentIndex ∧ expIdx m e < len
    · rw [if_pos hc]
      by_cases hs : len - 1 ≤ expIdx m e
      · rw [if_pos hs]
        exact Or.inr ⟨rfl, rfl, hc.2⟩
      · rw [if_neg hs]
        exact Or.inr ⟨rfl, rfl, hc.2⟩
    · rw [if_neg hc]
      by_cases hs : len - 1 ≤ expIdx m e
      · rw [if_pos hs]
        exact Or.inl ⟨rfl, rfl⟩
      · rw [if_neg hs]
        exact Or.inl ⟨rfl, rfl⟩

lemma estTick_lb (len : ℕ) (m : ℚ) (st : EstState) (e : ℕ)
    (h : st.currentIndex ≤ expIdx m e) :
    st.currentIndex ≤ (estTick len m st e).1.currentIndex := by
  rcases estTick_cases len m st e with ⟨_, hi⟩ | ⟨_, hi, _⟩ <;> omega

lemma estRun_props (len : ℕ) (m : ℚ) (hm : 0 < m) :
    ∀ (samples : List ℕ) (st : EstState),
      samples.Pairwise (· ≤ ·) →
      (∀ e ∈ samples, st.currentIndex ≤ expIdx m e) →
      List.Chain' (· ≤ ·) (estRun len m st samples) ∧
        ∀ x ∈ estRun len m st samples, st.currentIndex ≤ x ∧ x < len := by
  intro samples
  induction samples with
  | nil =>
    intro st _ _
    exact ⟨List.chain'_nil, by simp [estRun]⟩
  | cons e es ih =>
    intro st hpw hlb
    obtain ⟨hhead, htail⟩ := List.pairwise_cons.mp hpw
    have hb : st.currentIndex ≤ expIdx m e := hlb e (by simp)
    have hlb' : ∀ e' ∈ es, (estTick len m st e).1.currentIndex ≤ expIdx m e' := by
      intro e' he'
      rcases estTick_cases len m st e with ⟨_, hi⟩ | ⟨_, hi, _⟩
      · rw [hi]; exact hlb e' (by simp [he'])
      · rw [hi]; exact expIdx_mono m hm (hhead e' he')
    have hrec := ih (estTick len m st e).1 htail hlb'
    simp only [estRun]
    rcases estTick_cases len m st e with ⟨hout, hi⟩ | ⟨hout, hi, hlt⟩
    · rw [hout]
      simp only [List.nil_append]
      refine ⟨hrec.1, ?_⟩
      intro x hx
      have := hrec.2 x hx
      omega
    · rw [hout]
      simp only [List.singleton_append]
      constructor
      · rw [List.chain'_cons']
        refine ⟨?_, hrec.1⟩
        intro y hy
        have := hrec.2 y (List.mem_of_mem_head? hy)
        omega
      · intro x hx
        rcases List.mem_cons.mp hx with rfl | hx
        · exact ⟨hb, hlt⟩
        · have := hrec.2 x hx
          omega

-- ==========================================
-- extractWordTimings refines the spec grouping
-- ==========================================

lemma specGroups_cons_nb (x : Str × ℚ × ℚ) (xs : List (Str × ℚ × ℚ))
    (hx : isWordBreak x.1 = false) :
    specGroups (x :: xs) =
      (x :: xs.takeWhile nbChar) :: specGroups (xs.dropWhile nbChar) := by
  rw [specGroups]
  rw [if_neg (by simp [hx])]

lemma specGroups_cons_b (x : Str × ℚ × ℚ) (xs : List (Str × ℚ × ℚ))
    (hx : isWordBreak x.1 = true) :
    specGroups (x :: xs) = specGroups xs := by
  rw [specGroups]
  rw [if_pos hx]

/-- What the source loop produces for the group in progress: the buffered
characters followed by the rest of the current group, with the recorded
start and the group's final end (or the carried `wordEnd` if the group
ends immediately). -/
def ewtGroupEntry (cw : Str) (ws we : ℚ) (ts : List (Str × ℚ × ℚ)) : WordTiming :=
  { word := cw ++ ((ts.takeWhile nbChar).map (fun u => u.1)).flatten
    start := jsRound (ws * 1000)
    «end» := jsRound ((((ts.takeWhile nbChar).map (fun u => u.2.2)).getLastD we) * 1000) }

lemma ewt_spec_combined (ts : List (Str × ℚ × ℚ)) (hok : ∀ u ∈ ts, u.1.length = 1) :
    (∀ ws we : ℚ, ewtAux ts [] ws we = (specGroups ts).map specEntry) ∧
    (∀ (cw : Str) (ws we : ℚ), cw ≠ [] →
      ewtAux ts cw ws we =
        ewtGroupEntry cw ws we ts :: (specGroups (ts.dropWhile nbChar)).map specEntry) := by
  induction ts with
  | nil =>
    refine ⟨fun ws we => by simp [ewtAux, specGroups], ?_⟩
    intro cw ws we hcw
    simp [ewtAux, hcw, ewtGroupEntry, specGroups]
  | cons x xs ih =>
    obtain ⟨c, st, en⟩ := x
    have hok' : ∀ u ∈ xs, u.1.length = 1 := fun u hu => hok u (by simp [hu])
    have hc1 : c.length = 1 := hok (c, st, en) (by simp)
    have ih' := ih hok'
    have hstep : ∀ (cw : Str) (ws we : ℚ), ewtAux ((c, st, en) :: xs) cw ws we =
        if isWordBreak c then
          (if cw ≠ [] then [⟨cw, jsRound (ws * 1000), jsRound (we * 1000)⟩] else []) ++
            ewtAux xs [] ws we
        else ewtAux xs (cw ++ c) (if cw = [] then st else ws) en := fun _ _ _ => rfl
    by_cases hx : isWordBreak c = true
    · have hdw : ((c, st, en) :: xs).dropWhile nbChar = (c, st, en) :: xs := by
        rw [List.dropWhile_cons]
        simp [nbChar, hx]
      have htw : ((c, st, en) :: xs).takeWhile nbChar = [] := by
        rw [List.takeWhile_cons]
        simp [nbChar, hx]
      constructor
      · intro ws we
        rw [hstep, if_pos hx]
        simp only [ne_eq, not_true_eq_false, if_false, List.nil_append]
        rw [ih'.1 ws we, specGroups_cons_b (c, st, en) xs hx]
      · intro cw ws we hcw
        rw [hstep, if_pos hx, if_pos hcw, ih'.1 ws we, hdw,
          specGroups_cons_b (c, st, en) xs hx]
        have hentry : ewtGroupEntry cw ws we ((c, st, en) :: xs) =
            ⟨cw, jsRound (ws * 1000), jsRound (we * 1000)⟩ := by
          simp [ewtGroupEntry, htw]
        rw [hentry]
        rfl
    · have hx' : isWordBreak c = false := by simpa using hx
      have hcne : c ≠ [] := by
        intro h
        rw [h] at hc1
        simp at hc1
      have hnb : nbChar (c, st, en) = true := by simp [nbChar, hx']
      have htw : ((c, st, en) :: xs).takeWhile nbChar =
          (c, st, en) :: xs.takeWhile nbChar := by
        rw [List.takeWhile_cons, if_pos hnb]
      have hdw : ((c, st, en) :: xs).dropWhile nbChar = xs.dropWhile nbChar := by
        rw [List.dropWhile_cons, if_pos hnb]
      constructor
      · intro ws we
        rw [hstep, if_neg hx, if_pos rfl, List.nil_append]
        rw [ih'.2 c st en hcne]
        rw [specGroups_cons_nb (c, st, en) xs hx']
        simp only [List.map_cons]
        congr 1
        simp only [specEntry, ewtGroupEntry, htw, List.map_cons, List.headD_cons,
          List.getLastD_cons, List.flatten_cons]
      · intro cw ws we hcw
        rw [hstep, if_neg hx, if_neg hcw]
        have hcwc : cw ++ c ≠ [] := by simp [hcw]
        rw [ih'.2 (cw ++ c) ws en hcwc, hdw]
        congr 1
        simp only [ewtGroupEntry, htw, List.map_cons, List.getLastD_cons,
          List.flatten_cons, List.append_assoc]

-- ==========================================
-- updateCurrentWord: the silent-gap rule
-- ==========================================

lemma findLoop_cons_eq (t : ℚ) (w : WordTiming) (rest : List WordTiming) (i : ℕ) :
    findLoop t (w :: rest) i =
      if (w.start : ℚ) ≤ t ∧ t < (w.«end» : ℚ) then (i : ℤ)
      else if (w.«end» : ℚ) ≤ t ∧ gapNext t rest = true then (i : ℤ) + 1
      else findLoop t rest (i + 1) := rfl

lemma findLoop_gap (t : ℚ) :
    ∀ (timings : List WordTiming) (k i : ℕ) (hk : k + 1 < timings.length),
      (∀ w ∈ timings, w.start ≤ w.«end») →
      timings.Pairwise (fun a b => a.«end» ≤ b.start) →
      (((timings.get ⟨k, by omega⟩).«end» : ℚ) < t) →
      (t < ((timings.get ⟨k + 1, hk⟩).start : ℚ)) →
      findLoop t timings i = (i : ℤ) + (k : ℤ) + 1 := by
  intro timings
  induction timings with
  | nil =>
    intro k i hk
    simp at hk
  | cons w rest ihl =>
    intro k i hk hse hpw hg1 hg2
    obtain ⟨hw, hrest⟩ := List.pairwise_cons.mp hpw
    match k with
    | 0 =>
      -- the gap follows the head entry
      have hlen : 0 < rest.length := by simpa using hk
      obtain ⟨w', rest', rfl⟩ : ∃ w' rest', rest = w' :: rest' := by
        cases rest with
        | nil => simp at hlen
        | cons a as => exact ⟨a, as, rfl⟩
      have hg1' : ((w.«end» : ℚ)) < t := hg1
      have hg2' : t < (w'.start : ℚ) := hg2
      rw [findLoop_cons_eq]
      rw [if_neg (by push_neg; intro _; linarith)]
      rw [if_pos (by exact ⟨le_of_lt hg1', by simp [gapNext, hg2']⟩)]
      norm_num
    | k + 1 =>
      -- skip the head entry: it matches neither branch
      have hk' : k + 1 < rest.length := by simpa using hk
      have hkk : k < rest.length := by omega
      -- facts about the k-th and (k+1)-th entries of rest
      have hmemk : rest.get ⟨k, hkk⟩ ∈ rest := List.get_mem rest k hkk
      have hself : (rest.get ⟨k, hkk⟩).start ≤ (rest.get ⟨k, hkk⟩).«end» :=
        hse _ (by simp [hmemk])
      have hwk : w.«end» ≤ (rest.get ⟨k, hkk⟩).start := hw _ hmemk
      have hgap1 : ((rest.get ⟨k, hkk⟩).«end» : ℚ) < t := hg1
      have hgap2 : t < ((rest.get ⟨k + 1, hk'⟩).start : ℚ) := hg2
      have hwend : (w.«end» : ℚ) ≤ t := by
        have h1 : (w.«end» : ℚ) ≤ ((rest.get ⟨k, hkk⟩).start : ℚ) := by exact_mod_cast hwk
        have h2 : ((rest.get ⟨k, hkk⟩).start : ℚ) ≤ ((rest.get ⟨k, hkk⟩).«end» : ℚ) := by
          exact_mod_cast hself
        have h3 : ((rest.get ⟨k, hkk⟩).«end» : ℚ) < t := hgap1
        linarith
      rw [findLoop_cons_eq]
      have hfirst : ¬((w.start : ℚ) ≤ t ∧ t < (w.«end» : ℚ)) := by
        push_neg
        intro _
        linarith
      rw [if_neg hfirst]
      have hsecond : ¬((w.«end» : ℚ) ≤ t ∧ gapNext t rest = true) := by
        obtain ⟨w', rest', rfl⟩ : ∃ w' rest', rest = w' :: rest' := by
          cases rest with
          | nil => simp at hkk
          | cons a as => exact ⟨a, as, rfl⟩
        simp only [gapNext, decide_eq_true_eq]
        intro hcontra
        have hts : t < (w'.start : ℚ) := hcontra.2
        -- but w'.start is at most the k-th end, which is below t
        have hchain : (w'.start : ℚ) ≤ (((w' :: rest').get ⟨k, hkk⟩).«end» : ℚ) := by
          match k, hkk with
          | 0, _ =>
            exact_mod_cast hse w' (by simp)
          | k + 1, hkk =>
            obtain ⟨hw', hrest'⟩ := List.pairwise_cons.mp hrest
            have hklt : k < rest'.length := by simpa using hkk
            have hm : (rest'.get ⟨k, hklt⟩) ∈ rest' := List.get_mem rest' k hklt
            have h1 : w'.«end» ≤ (rest'.get ⟨k, hklt⟩).start := hw' _ hm
            have h2 : w'.start ≤ w'.«end» := hse w' (by simp)
            have h3 : (rest'.get ⟨k, hklt⟩).start ≤ (rest'.get ⟨k, hklt⟩).«end» :=
              hse _ (by simp [hm])
            have h4 : ((w' :: rest').get ⟨k + 1, hkk⟩) = rest'.get ⟨k, hklt⟩ := rfl
            rw [h4]
            exact_mod_cast by omega
        linarith
      rw [if_neg hsecond]
      have := ihl k (i + 1) hk' (fun u hu => hse u (by simp [hu])) hrest hgap1 hgap2
      rw [this]
      push_cast
      ring

lemma updateCurrentWord_eq_of_findLoop (timings : List WordTiming) (t : ℚ) (k : ℕ)
    (h : findLoop t timings 0 = (k : ℤ) + 1) :
    updateCurrentWord timings t = (k : ℤ) + 1 := by
  unfold updateCurrentWord
  rw [h]
  have hne : ¬((k : ℤ) + 1 = -1 ∧ timings ≠ [] ∧
      ((timings.getLastD default).start : ℚ) ≤ t) := by
    rintro ⟨h1, _⟩
    omega
  rw [if_neg hne]

-- ==========================================
-- updateReadingProgress frame lemmas
-- ==========================================

/-- In a store with pairwise-distinct ids, two members with the same id
are the same book. -/
lemma unique_id_eq (store : BookStore) (h : store.Pairwise (fun a b => a.id ≠ b.id))
    {b c : Book} (hb : b ∈ store) (hc : c ∈ store) (hid : b.id = c.id) : b = c := by
  induction store with
  | nil => cases hb
  | cons x xs ih =>
    obtain ⟨hx, hxs⟩ := List.pairwise_cons.mp h
    rcases List.mem_cons.mp hb with rfl | hb' <;> rcases List.mem_cons.mp hc with rfl | hc'
    · rfl
    · exact absurd hid (hx c hc')
    · exact absurd hid.symm (hx b hb')
    · exact ih hxs hb' hc'

lemma forall₂_map_self {α : Type} (R : α → α → Prop) (f : α → α) (l : List α)
    (h : ∀ x ∈ l, R x (f x)) : List.Forall₂ R l (l.map f) := by
  induction l with
  | nil => exact List.Forall₂.nil
  | cons x xs ih =>
    exact List.Forall₂.cons (h x (by simp)) (ih (fun y hy => h y (by simp [hy])))

lemma forall₂_self {α : Type} (R : α → α → Prop) (l : List α)
    (h : ∀ x ∈ l, R x x) : List.Forall₂ R l l := by
  induction l with
  | nil => exact List.Forall₂.nil
  | cons x xs ih =>
    exact List.Forall₂.cons (h x (by simp)) (ih (fun y hy => h y (by simp [hy])))

/-- The frame relation of `updateReadingProgress`: `upd` agrees with `old`
on every field other than `lastChunkIndex`/`lastReadAt`, is literally
unchanged when the id differs, and carries the new progress when the id
matches. -/
def progressFrame (bid : Str) (ci now : ℕ) (old upd : Book) : Prop :=
  upd.id = old.id ∧ upd.title = old.title ∧ upd.author = old.author ∧
    upd.text = old.text ∧ upd.chunks = old.chunks ∧ upd.createdAt = old.createdAt ∧
    upd.settings = old.settings ∧
    (old.id ≠ bid → upd = old) ∧
    (old.id = bid → upd.lastChunkIndex = ci ∧ upd.lastReadAt = some now)

-- ==========================================
-- Claim theorems
-- ==========================================

/-- C1: for every input text and every valid chunking policy,
concatenating the sentences of the chunks returned by `chunkText` yields
exactly the sentences of the whitespace-normalised input, in the same
order, with no sentence lost, duplicated, or altered. -/
theorem C1_chunks_preserve_sentences (opts : ResolvedOptions) (text : Str)
    (_hv : validPolicy opts) :
    (chunkTextResolved opts text).flatMap Chunk.sentences = inputSentences opts text :=
  chunkTextResolved_sentences opts text

theorem C1_chunks_preserve_sentences_witness :
    validPolicy DEFAULT_OPTIONS ∧
      (chunkTextResolved DEFAULT_OPTIONS "Hello there. How are you?".toList).flatMap
          Chunk.sentences =
        inputSentences DEFAULT_OPTIONS "Hello there. How are you?".toList :=
  ⟨by decide, C1_chunks_preserve_sentences DEFAULT_OPTIONS _ (by decide)⟩

/-- C2: under a valid policy, every chunk has word count at most
`maxWords`, except a chunk made of exactly one sentence whose own word
count exceeds `maxWords`; in particular every chunk of two or more
sentences is within the bound. -/
theorem C2_chunk_word_count_bound (opts : ResolvedOptions) (text : Str)
    (hv : validPolicy opts) :
    ∀ c ∈ chunkTextResolved opts text,
      (c.words.length ≤ opts.maxWords ∨
        ∃ s, c.sentences = [s] ∧ opts.maxWords < countWords s) ∧
      (2 ≤ c.sentences.length → c.words.length ≤ opts.maxWords) := by
  obtain ⟨st, heq, hInv⟩ := chunkTextResolved_inv opts text hv
  intro c hc
  rw [heq] at hc
  have hg := hInv.good c hc
  refine ⟨hg, ?_⟩
  intro h2
  rcases hg with h | ⟨s, hs, _⟩
  · exact h
  · rw [hs] at h2
    simp at h2

theorem C2_chunk_word_count_bound_witness :
    validPolicy DEFAULT_OPTIONS ∧
      ∀ c ∈ chunkTextResolved DEFAULT_OPTIONS "Hello there. How are you?".toList,
        (c.words.length ≤ DEFAULT_OPTIONS.maxWords ∨
          ∃ s, c.sentences = [s] ∧ DEFAULT_OPTIONS.maxWords < countWords s) ∧
        (2 ≤ c.sentences.length → c.words.length ≤ DEFAULT_OPTIONS.maxWords) :=
  ⟨by decide, C2_chunk_word_count_bound DEFAULT_OPTIONS _ (by decide)⟩

/-- C3: the claim that pausing at word index `i` and resuming never emits
an index below `i` is FALSE of the code: `resume` restarts
`startWordEstimation` over `words.slice(currentWordIndex)`, and that
function unconditionally emits `setCurrentWordIndex(0)`.  Concretely,
pausing a 5-word utterance at index 3 (rate 1) and resuming emits index
0 at once; in general the first emission after `resume` is always 0. -/
theorem C3_resume_restarts_at_zero :
    resumeEstimation 3 5 (msPerWord 1) [0] = [0] ∧ (0 : ℕ) < 3 ∧
      ∀ (i len : ℕ) (m : ℚ) (samples : List ℕ),
        (resumeEstimation i len m samples).head? = some 0 := by
  refine ⟨?_, by norm_num, fun i len m samples => rfl⟩
  have h0 : expIdx (msPerWord 1) 0 = 0 := by simp [expIdx]
  simp [resumeEstimation, startWordEstimation, estRun, estTick, estEmit, estStop, h0]

/-- C4 counterexample: `chunkText` does NOT reject an invalid policy.
With `{targetWords: 5, maxWords: 3, minWords: 10}` (violating
`minWords ≤ targetWords ≤ maxWords`) it proceeds and returns ordinary
chunks — the first even has 6 words, beyond the unclamped `maxWords` of
3. -/
theorem C4_counterexample :
    ¬ validPolicy (mergeDefaults (some ⟨some 5, some 3, some 10, some false⟩)) ∧
      (chunkText "One two three four five six. Seven eight.".toList
          (some ⟨some 5, some 3, some 10, some false⟩)).map
          (fun c => (c.text, c.words.length)) =
        [("One two three four five six.".toList, 6), ("Seven eight.".toList, 2)] := by
  exact ⟨by decide, by decide⟩

/-- C4 (amended): `chunkText` performs no policy validation at all — for
every options object, valid or not, it merges the given fields over the
defaults unchanged and chunks with them, still distributing every
sentence of the normalised input into the returned chunks; no
configuration error exists. -/
theorem C4_no_validation (text : Str) (o : ChunkOptions) :
    (chunkText text (some o)).flatMap Chunk.sentences =
      inputSentences (mergeDefaults (some o)) text :=
  chunkTextResolved_sentences (mergeDefaults (some o)) text

/-- C5: during one uninterrupted run of the heuristic estimator on a
non-empty word list, the emitted word indices are non-decreasing and lie
within `[0, words.length − 1]`. -/
theorem C5_estimator_monotone_bounded (len : ℕ) (m : ℚ) (samples : List ℕ)
    (hlen : 1 ≤ len) (hm : 0 < m) (hs : samples.Pairwise (· ≤ ·)) :
    List.Chain' (· ≤ ·) (startWordEstimation len m samples) ∧
      ∀ x ∈ startWordEstimation len m samples, x ≤ len - 1 := by
  have h := estRun_props len m hm samples ⟨0, true⟩ hs (fun e _ => Nat.zero_le _)
  unfold startWordEstimation
  constructor
  · rw [List.chain'_cons']
    exact ⟨fun y _ => Nat.zero_le _, h.1⟩
  · intro x hx
    rcases List.mem_cons.mp hx with rfl | hx
    · omega
    · have := (h.2 x hx).2
      omega

theorem C5_estimator_monotone_bounded_witness :
    (1 ≤ 3 ∧ (0 : ℚ) < 400 ∧ List.Pairwise (· ≤ ·) [0, 400, 800]) ∧
      List.Chain' (· ≤ ·) (startWordEstimation 3 400 [0, 400, 800]) ∧
        ∀ x ∈ startWordEstimation 3 400 [0, 400, 800], x ≤ 3 - 1 :=
  ⟨⟨by decide, by decide, by decide⟩,
    C5_estimator_monotone_bounded 3 400 [0, 400, 800] (by decide) (by decide) (by decide)⟩

/-- C6: `extractWordTimings` groups consecutive non-whitespace characters
into words (space, newline, tab close a group; a trailing group closes at
end of input), each `WordTiming` taking the group's first character start
and last character end, seconds rounded to milliseconds; in particular on
`["H","i"," ","t","h","e","r","e"]` with arbitrary per-character
timestamps it returns exactly the two entries `"Hi"` and `"there"`
bounded by those groups' first/last character times. -/
theorem C6_extractWordTimings_grouping :
    (∀ (chars : List Str) (starts ends : List ℚ), (∀ c ∈ chars, c.length = 1) →
        extractWordTimings chars starts ends = specWordTimings chars starts ends) ∧
      ∀ s0 s1 s2 s3 s4 s5 s6 s7 e0 e1 e2 e3 e4 e5 e6 e7 : ℚ,
        extractWordTimings (["H", "i", " ", "t", "h", "e", "r", "e"].map String.toList)
            [s0, s1, s2, s3, s4, s5, s6, s7] [e0, e1, e2, e3, e4, e5, e6, e7] =
          [⟨"Hi".toList, jsRound (s0 * 1000), jsRound (e1 * 1000)⟩,
            ⟨"there".toList, jsRound (s3 * 1000), jsRound (e7 * 1000)⟩] := by
  constructor
  · intro chars starts ends hok
    unfold extractWordTimings specWordTimings
    refine (ewt_spec_combined _ ?_).1 0 0
    intro u hu
    obtain ⟨c, p⟩ := u
    exact hok c (List.of_mem_zip hu).1
  · intro s0 s1 s2 s3 s4 s5 s6 s7 e0 e1 e2 e3 e4 e5 e6 e7
    rfl

theorem C6_extractWordTimings_grouping_witness :
    (∀ c ∈ ["H", "i", " ", "t", "h", "e", "r", "e"].map String.toList, c.length = 1) ∧
      extractWordTimings (["H", "i", " ", "t", "h", "e", "r", "e"].map String.toList)
          [0, 1/10, 2/10, 3/10, 4/10, 5/10, 6/10, 7/10]
          [1/10, 2/10, 3/10, 4/10, 5/10, 6/10, 7/10, 8/10] =
        specWordTimings (["H", "i", " ", "t", "h", "e", "r", "e"].map String.toList)
          [0, 1/10, 2/10, 3/10, 4/10, 5/10, 6/10, 7/10]
          [1/10, 2/10, 3/10, 4/10, 5/10, 6/10, 7/10, 8/10] :=
  ⟨by decide, C6_extractWordTimings_grouping.1 _ _ _ (by decide)⟩

/-- C7: for an ordered, non-overlapping timing table, a playback time in
the silent gap strictly between word `k`'s end and word `k+1`'s start
resolves to index `k+1` — never a stale earlier index and never the `-1`
sentinel. -/
theorem C7_gap_resolves_next_word (timings : List WordTiming) (t : ℚ) (k : ℕ)
    (hk : k + 1 < timings.length)
    (hse : ∀ w ∈ timings, w.start ≤ w.«end»)
    (hord : timings.Pairwise (fun a b => a.«end» ≤ b.start))
    (hg1 : ((timings.get ⟨k, by omega⟩).«end» : ℚ) < t)
    (hg2 : t < ((timings.get ⟨k + 1, hk⟩).start : ℚ)) :
    updateCurrentWord timings t = (k : ℤ) + 1 := by
  apply updateCurrentWord_eq_of_findLoop
  have := findLoop_gap t timings k 0 hk hse hord hg1 hg2
  simpa using this

theorem C7_gap_resolves_next_word_witness :
    (2 + 1 < ([⟨"a".toList, 0, 100⟩, ⟨"b".toList, 100, 200⟩, ⟨"c".toList, 200, 300⟩,
        ⟨"d".toList, 600, 700⟩] : List WordTiming).length) ∧
      updateCurrentWord [⟨"a".toList, 0, 100⟩, ⟨"b".toList, 100, 200⟩,
        ⟨"c".toList, 200, 300⟩, ⟨"d".toList, 600, 700⟩] 450 = (2 : ℤ) + 1 :=
  ⟨by decide,
    C7_gap_resolves_next_word
      [⟨"a".toList, 0, 100⟩, ⟨"b".toList, 100, 200⟩, ⟨"c".toList, 200, 300⟩,
        ⟨"d".toList, 600, 700⟩] 450 2
      (by decide) (by decide) (by decide) (by decide) (by decide)⟩

/-- C8: under a valid policy the chunk ids are the sequential integers
starting at 0, every chunk satisfies `startPosition < endPosition`, and
consecutive chunks' offset ranges are ascending and non-overlapping (each
chunk starts no earlier than the previous one ends). -/
theorem C8_chunk_ids_and_positions (opts : ResolvedOptions) (text : Str)
    (hv : validPolicy opts) :
    (chunkTextResolved opts text).map Chunk.id =
        List.range (chunkTextResolved opts text).length ∧
      (∀ c ∈ chunkTextResolved opts text, c.startPosition < c.endPosition) ∧
      (chunkTextResolved opts text).Chain'
        (fun a b => a.endPosition ≤ b.startPosition) := by
  obtain ⟨st, heq, hInv⟩ := chunkTextResolved_inv opts text hv
  rw [heq]
  exact ⟨hInv.ids, hInv.pos_lt, hInv.chain⟩

theorem C8_chunk_ids_and_positions_witness :
    validPolicy DEFAULT_OPTIONS ∧
      (chunkTextResolved DEFAULT_OPTIONS "Hello there. How are you?".toList).map
          Chunk.id =
        List.range (chunkTextResolved DEFAULT_OPTIONS
          "Hello there. How are you?".toList).length ∧
      (∀ c ∈ chunkTextResolved DEFAULT_OPTIONS "Hello there. How are you?".toList,
        c.startPosition < c.endPosition) ∧
      (chunkTextResolved DEFAULT_OPTIONS "Hello there. How are you?".toList).Chain'
        (fun a b => a.endPosition ≤ b.startPosition) :=
  ⟨by decide, C8_chunk_ids_and_positions DEFAULT_OPTIONS _ (by decide)⟩

/-- C9: omitting the options argument of `chunkText` is the same as
passing the full default policy `{targetWords: 40, maxWords: 60,
minWords: 20, preserveParagraphs: true}`, and in a partial options object
every omitted field takes the corresponding default. -/
theorem C9_default_options :
    (∀ text : Str, chunkText text none =
        chunkText text (some ⟨some 40, some 60, some 20, some true⟩)) ∧
      ∀ o : ChunkOptions,
        mergeDefaults (some o) =
          ⟨o.targetWords.getD 40, o.maxWords.getD 60, o.minWords.getD 20,
            o.preserveParagraphs.getD true⟩ :=
  ⟨fun _ => rfl, fun _ => rfl⟩

/-- C10: `updateReadingProgress` changes only `lastChunkIndex` and
`lastReadAt` of the book whose id matches, leaves every other field of
that book and every other book untouched, and leaves the whole store
unchanged (raising no error) when no book has the id. -/
theorem C10_updateReadingProgress_frame (store : BookStore) (bid : Str) (ci now : ℕ)
    (hu : store.Pairwise (fun a b => a.id ≠ b.id)) :
    List.Forall₂ (progressFrame bid ci now) store
        (updateReadingProgress store bid ci now) ∧
      ((∀ b ∈ store, b.id ≠ bid) → updateReadingProgress store bid ci now = store) := by
  unfold updateReadingProgress dbGet
  cases hfind : store.find? (fun b => b.id = bid) with
  | none =>
    simp only [hfind]
    constructor
    · apply forall₂_self
      intro x hx
      have hnid : ¬(x.id = bid) := by
        have := List.find?_eq_none.mp hfind x hx
        simpa using this
      exact ⟨rfl, rfl, rfl, rfl, rfl, rfl, rfl, fun _ => rfl, fun h => absurd h hnid⟩
    · intro _
      trivial
  | some b =>
    simp only [hfind]
    have hb : b ∈ store := List.mem_of_find?_eq_some hfind
    have hbid : b.id = bid := by simpa using List.find?_some hfind
    have hany : store.any (fun x =>
        x.id = ({ b with lastChunkIndex := ci, lastReadAt := some now } : Book).id) = true := by
      apply List.any_eq_true.mpr
      exact ⟨b, hb, by simp⟩
    unfold dbPut
    rw [if_pos hany]
    constructor
    · apply forall₂_map_self
      intro c hc
      by_cases hcid : c.id = ({ b with lastChunkIndex := ci, lastReadAt := some now } : Book).id
      · rw [if_pos (by simpa using hcid)]
        have hcb : c = b := unique_id_eq store hu hc hb (by simpa using hcid)
        subst hcb
        refine ⟨rfl, rfl, rfl, rfl, rfl, rfl, rfl, fun hne => absurd hbid ?_, fun _ => ⟨rfl, rfl⟩⟩
        simpa using hne
      · rw [if_neg (by simpa using hcid)]
        refine ⟨rfl, rfl, rfl, rfl, rfl, rfl, rfl, fun _ => rfl, fun hcbid => ?_⟩
        exact absurd (by simp [hcbid, ← hbid]) hcid
    · intro h
      exact absurd hbid (h b hb)

theorem C10_updateReadingProgress_frame_witness :
    ([⟨"a".toList, "T1".toList, none, "one".toList, [], 5, none, 0,
        ⟨"bg".toList, none, none, none, 1, 40⟩⟩,
      ⟨"b".toList, "T2".toList, none, "two".toList, [], 6, none, 1,
        ⟨"bg".toList, none, none, none, 1, 40⟩⟩] : BookStore).Pairwise
        (fun x y => x.id ≠ y.id) ∧
      List.Forall₂ (progressFrame "a".toList 7 99)
        [⟨"a".toList, "T1".toList, none, "one".toList, [], 5, none, 0,
          ⟨"bg".toList, none, none, none, 1, 40⟩⟩,
         ⟨"b".toList, "T2".toList, none, "two".toList, [], 6, none, 1,
          ⟨"bg".toList, none, none, none, 1, 40⟩⟩]
        (updateReadingProgress
          [⟨"a".toList, "T1".toList, none, "one".toList, [], 5, none, 0,
            ⟨"bg".toList, none, none, none, 1, 40⟩⟩,
           ⟨"b".toList, "T2".toList, none, "two".toList, [], 6, none, 1,
            ⟨"bg".toList, none, none, none, 1, 40⟩⟩] "a".toList 7 99) :=
  ⟨by decide,
    (C10_updateReadingProgress_frame _ "a".toList 7 99 (by decide)).1⟩

end ReadRot
